import Mathlib

/-!
Verification of the presence/message-broadcast coordinator of the chat
server in `src/server/server.js`.

The server keeps two pieces of in-memory state: `activeUsers`, a JS `Map`
from a socket id to a participant record `{id, username, joinedAt}`, and
`messages`, an array of chat messages bounded at 100 entries.  Four socket
events mutate this state and emit notifications: `join`, `sendMessage`,
`typing` and `disconnect`.  We embed the state, the JS `Map` operations
(as an association list with unique keys by construction) and each event
handler, and prove the specified properties of event traces.

Connection ids and timestamps are modelled as `Nat`; the ambient clock
(`Date.now()` / `new Date()`) is passed in as an explicit `now` argument
of each event.
-/

namespace ChatServer

/-- A registry entry: the object stored by
`activeUsers.set(socket.id, { id, username, joinedAt })`. -/
structure Participant where
  id : Nat
  username : String
  joinedAt : Nat
deriving DecidableEq, Repr

/-- A chat message as built by the `sendMessage` handler:
`{ id: Date.now(), username, message, timestamp }`.  Both the time-based
`id` and the `timestamp` are modelled by the `now` argument. -/
structure ChatMessage where
  id : Nat
  username : String
  message : String
  timestamp : Nat
deriving DecidableEq, Repr

/-- The `activeUsers` JS `Map`, as an association list in insertion order. -/
abbrev Registry := List (Nat × Participant)

/-- `activeUsers.get(k)`. -/
def mapGet (m : Registry) (k : Nat) : Option Participant :=
  (m.find? (fun p => p.1 == k)).map (·.2)

/-- `activeUsers.set(k, v)`: a JS `Map` replaces the value in place when the
key is present (keeping insertion order) and appends a new entry otherwise. -/
def mapSet (m : Registry) (k : Nat) (v : Participant) : Registry :=
  if m.any (fun p => p.1 == k) then
    m.map (fun p => if p.1 == k then (k, v) else p)
  else
    m ++ [(k, v)]

/-- `activeUsers.delete(k)`: removes the entry with key `k`
(a JS `Map` holds at most one entry per key). -/
def mapDelete (m : Registry) (k : Nat) : Registry :=
  m.filter (fun p => p.1 != k)

/-- The server's mutable state: `activeUsers` and `messages`. -/
structure ServerState where
  activeUsers : Registry
  messages : List ChatMessage
deriving DecidableEq, Repr

/-- The state at process start: both containers empty. -/
def initState : ServerState := ⟨[], []⟩

/-- `l.slice(-n)` on a JS array: the last `n` elements (all of them when the
array is shorter), in order. -/
def sliceLast (l : List α) (n : Nat) : List α := l.drop (l.length - n)

/-- One outbound notification handed to the transport layer.
`usersList`/`messageHistory` are `socket.emit` (to one connection);
`userJoined`/`userTyping`/`userLeft` are `socket.broadcast.emit`
(to every connection except `exc`); `newMessage` is `io.emit`
(to every connection). -/
inductive Emission where
  | usersList (tgt : Nat) (users : List Participant)
  | messageHistory (tgt : Nat) (msgs : List ChatMessage)
  | userJoined (exc : Nat) (username message : String) (timestamp : Nat)
  | newMessage (msg : ChatMessage)
  | userTyping (exc : Nat) (username : String) (isTyping : Bool)
  | userLeft (exc : Nat) (username message : String) (timestamp : Nat)
deriving DecidableEq, Repr

/-- Whether an emission is delivered to connection `c`, given the list
`conns` of currently connected sockets: `socket.emit` reaches exactly its
target, `socket.broadcast.emit` reaches every connection except the
emitting one, `io.emit` reaches every connection. -/
def delivers (conns : List Nat) (c : Nat) : Emission → Bool
  | .usersList tgt _ => c == tgt
  | .messageHistory tgt _ => c == tgt
  | .userJoined exc _ _ _ => conns.contains c && c != exc
  | .newMessage _ => conns.contains c
  | .userTyping exc _ _ => conns.contains c && c != exc
  | .userLeft exc _ _ _ => conns.contains c && c != exc

/-- The direct (`socket.emit`) target of an emission, if it has one. -/
def directTarget : Emission → Option Nat
  | .usersList tgt _ => some tgt
  | .messageHistory tgt _ => some tgt
  | _ => none

/-- The `join` handler (server.js 118-142): stores the participant with
`activeUsers.set`, broadcasts `userJoined` to everyone else, and emits the
full users list and the last 20 messages to the joining socket. -/
def handleJoin (st : ServerState) (cid : Nat) (username : String) (now : Nat) :
    ServerState × List Emission :=
  let p : Participant := ⟨cid, username, now⟩
  let users := mapSet st.activeUsers cid p
  ({ st with activeUsers := users },
   [ .userJoined cid username (username ++ " joined the chat") now,
     .usersList cid (users.map (·.2)),
     .messageHistory cid (sliceLast st.messages 20) ])

/-- The `sendMessage` handler (server.js 145-182): drops the event when the
sender is not registered; otherwise builds the message, pushes it, shifts
the oldest entry off when the log exceeds 100, and `io.emit`s it to all. -/
def handleSendMessage (st : ServerState) (cid : Nat) (body : String) (now : Nat) :
    ServerState × List Emission :=
  match mapGet st.activeUsers cid with
  | none => (st, [])
  | some user =>
      let msg : ChatMessage := ⟨now, user.username, body, now⟩
      let pushed := st.messages ++ [msg]
      let kept := if pushed.length > 100 then pushed.drop 1 else pushed
      ({ st with messages := kept }, [ .newMessage msg ])

/-- The `typing` handler (server.js 185-193): drops the event when the
sender is not registered; otherwise broadcasts `userTyping` to all except
the sender.  No state change. -/
def handleTyping (st : ServerState) (cid : Nat) (isTyping : Bool) :
    ServerState × List Emission :=
  match mapGet st.activeUsers cid with
  | none => (st, [])
  | some user => (st, [ .userTyping cid user.username isTyping ])

/-- The `disconnect` handler (server.js 196-212): when a participant is
registered for the socket, deletes it and broadcasts `userLeft` to the
others; otherwise does nothing. -/
def handleDisconnect (st : ServerState) (cid : Nat) (now : Nat) :
    ServerState × List Emission :=
  match mapGet st.activeUsers cid with
  | none => (st, [])
  | some user =>
      ({ st with activeUsers := mapDelete st.activeUsers cid },
       [ .userLeft cid user.username (user.username ++ " left the chat") now ])

/-- An inbound socket event, with the clock value at processing time. -/
inductive Event where
  | join (cid : Nat) (username : String) (now : Nat)
  | sendMessage (cid : Nat) (body : String) (now : Nat)
  | typing (cid : Nat) (isTyping : Bool)
  | disconnect (cid : Nat) (now : Nat)
deriving DecidableEq, Repr

/-- Dispatch one inbound event to its handler (server.js 114-213). -/
def step (st : ServerState) : Event → ServerState × List Emission
  | .join cid u now => handleJoin st cid u now
  | .sendMessage cid b now => handleSendMessage st cid b now
  | .typing cid t => handleTyping st cid t
  | .disconnect cid now => handleDisconnect st cid now

/-- Process a trace of events (the socket.io event loop serialises them). -/
def runState (st : ServerState) : List Event → ServerState
  | [] => st
  | e :: es => runState (step st e).1 es

/-- Number of `join` events in a trace. -/
def joinEvents : List Event → Nat
  | [] => 0
  | .join _ _ _ :: es => joinEvents es + 1
  | _ :: es => joinEvents es

/-- Number of `join` events whose connection id was not registered when the
event was processed (the joins that add a new registry entry). -/
def freshJoins (st : ServerState) : List Event → Nat
  | [] => 0
  | e :: es =>
      (match e with
       | .join cid _ _ => if mapGet st.activeUsers cid = none then 1 else 0
       | _ => 0) + freshJoins (step st e).1 es

/-- Number of `disconnect` events whose connection id was registered when
the event was processed (the disconnects that remove an entry); a repeated
disconnect for the same id finds nothing and is not counted. -/
def matchedDisconnects (st : ServerState) : List Event → Nat
  | [] => 0
  | e :: es =>
      (match e with
       | .disconnect cid _ => if (mapGet st.activeUsers cid).isSome then 1 else 0
       | _ => 0) + matchedDisconnects (step st e).1 es

/-- The chat messages a trace appends to the log, in order: one per
`sendMessage` event whose sender is registered at that moment. -/
def appendedMessages (st : ServerState) : List Event → List ChatMessage
  | [] => []
  | e :: es =>
      (match e with
       | .sendMessage cid body now =>
           match mapGet st.activeUsers cid with
           | none => []
           | some u => [⟨now, u.username, body, now⟩]
       | _ => []) ++ appendedMessages (step st e).1 es

/-- The scenario of spec §8: one join, then 101 sequential sends
(message number `k` is sent at clock value `k`). -/
def scenario101 : List Event :=
  .join 1 "alice" 0 :: (List.range 101).map (fun i => .sendMessage 1 "m" (i + 1))

/-! ### Lemmas about the JS `Map` embedding -/

theorem mapGet_eq_none_iff (m : Registry) (k : Nat) :
    mapGet m k = none ↔ m.any (fun p => p.1 == k) = false := by
  simp [mapGet, List.find?_eq_none, List.any_eq_false]

theorem any_of_mapGet_eq_some {m : Registry} {k : Nat} {u : Participant}
    (h : mapGet m k = some u) : m.any (fun p => p.1 == k) = true := by
  cases hany : m.any (fun p => p.1 == k) with
  | true => rfl
  | false => rw [(mapGet_eq_none_iff m k).mpr hany] at h; cases h

theorem find?_replace_self (k : Nat) (v : Participant) :
    ∀ m : Registry, m.any (fun p => p.1 == k) = true →
      (m.map (fun p => if p.1 == k then (k, v) else p)).find? (fun p => p.1 == k)
        = some (k, v) := by
  intro m
  induction m with
  | nil => intro h; simp at h
  | cons a m ih =>
      intro h
      rw [List.map_cons]
      by_cases hk : (a.1 == k) = true
      · rw [if_pos hk, List.find?_cons_of_pos _ (by simp)]
      · have hkf : (a.1 == k) = false := by simpa using hk
        rw [List.any_cons] at h
        simp only [hkf, Bool.false_or] at h
        rw [if_neg hk, List.find?_cons_of_neg (p := fun (q : Nat × Participant) => q.1 == k) _ hk]
        exact ih h

theorem mapGet_mapSet_self (m : Registry) (k : Nat) (v : Participant) :
    mapGet (mapSet m k v) k = some v := by
  unfold mapGet mapSet
  by_cases h : m.any (fun p => p.1 == k) = true
  · rw [if_pos h, find?_replace_self k v m h]
    rfl
  · rw [Bool.not_eq_true] at h
    rw [if_neg (by simp [h]), List.find?_append]
    have hnone : m.find? (fun p => p.1 == k) = none :=
      List.find?_eq_none.mpr (fun x hx => by
        have := List.any_eq_false.mp h x hx
        simpa using this)
    simp [hnone, List.find?_cons]

theorem length_mapSet (m : Registry) (k : Nat) (v : Participant) :
    (mapSet m k v).length
      = if m.any (fun p => p.1 == k) then m.length else m.length + 1 := by
  cases hany : m.any (fun p => p.1 == k) <;> simp [mapSet, hany]

theorem mapDelete_eq_self {m : Registry} {k : Nat}
    (h : m.any (fun p => p.1 == k) = false) : mapDelete m k = m := by
  unfold mapDelete
  rw [List.filter_eq_self]
  intro a ha
  have := List.any_eq_false.mp h a ha
  simpa using this

theorem mapGet_mapDelete_self (m : Registry) (k : Nat) :
    mapGet (mapDelete m k) k = none := by
  unfold mapGet mapDelete
  have hnone : (m.filter (fun p => p.1 != k)).find? (fun p => p.1 == k) = none := by
    rw [List.find?_eq_none]
    intro x hx
    have := (List.mem_filter.mp hx).2
    simpa using this
  rw [hnone]
  rfl

theorem length_mapDelete_add_one (k : Nat) :
    ∀ m : Registry, (m.map (·.1)).Nodup → m.any (fun p => p.1 == k) = true →
      (mapDelete m k).length + 1 = m.length := by
  intro m
  induction m with
  | nil => intro _ h; simp at h
  | cons a m ih =>
      intro hnd h
      rw [List.map_cons, List.nodup_cons] at hnd
      by_cases hk : (a.1 == k) = true
      · have hknot : m.any (fun p => p.1 == k) = false := by
          rw [List.any_eq_false]
          intro x hx hxk
          apply hnd.1
          have hx1 : x.1 = k := by simpa using hxk
          have ha1 : a.1 = k := by simpa using hk
          rw [ha1, ← hx1]
          exact List.mem_map_of_mem _ hx
        have htail : mapDelete m k = m := mapDelete_eq_self hknot
        have hk' : a.1 = k := by simpa using hk
        have hpred : ¬ (a.1 != k) = true := by simp [hk']
        unfold mapDelete at htail ⊢
        rw [List.filter_cons_of_neg (p := fun (q : Nat × Participant) => q.1 != k) hpred, htail]
        simp
      · have hk' : ¬ a.1 = k := by simpa using hk
        have hm : m.any (fun p => p.1 == k) = true := by
          rw [List.any_cons] at h
          simpa [hk'] using h
        have hpred : (a.1 != k) = true := by simp [hk']
        have ihm := ih hnd.2 hm
        unfold mapDelete at ihm ⊢
        rw [List.filter_cons_of_pos (p := fun (q : Nat × Participant) => q.1 != k) hpred]
        simp only [List.length_cons]
        omega

theorem keys_mapSet_nodup (m : Registry) (k : Nat) (v : Participant)
    (h : (m.map (·.1)).Nodup) : ((mapSet m k v).map (·.1)).Nodup := by
  unfold mapSet
  by_cases hany : m.any (fun p => p.1 == k) = true
  · rw [if_pos hany, List.map_map]
    have heq : m.map ((·.1) ∘ fun p => if p.1 == k then (k, v) else p) = m.map (·.1) := by
      apply List.map_congr_left
      intro a _
      by_cases hk : (a.1 == k) = true
      · have : a.1 = k := by simpa using hk
        simp [Function.comp, hk, this]
      · simp [Function.comp, hk]
    rw [heq]
    exact h
  · rw [if_neg hany, List.map_append, List.nodup_append]
    refine ⟨h, by simp, ?_⟩
    intro x hx
    simp only [List.map_cons, List.map_nil, List.mem_singleton]
    intro hxk
    rw [Bool.not_eq_true] at hany
    obtain ⟨a, ha, rfl⟩ := List.mem_map.mp hx
    have := List.any_eq_false.mp hany a ha
    simp only [hxk] at this
    simp at this

theorem keys_mapDelete_nodup (m : Registry) (k : Nat)
    (h : (m.map (·.1)).Nodup) : ((mapDelete m k).map (·.1)).Nodup :=
  h.sublist ((List.filter_sublist m).map (·.1))

/-! ### Lemmas about single steps -/

theorem step_join_activeUsers (st : ServerState) (cid : Nat) (u : String) (now : Nat) :
    (step st (.join cid u now)).1.activeUsers
      = mapSet st.activeUsers cid ⟨cid, u, now⟩ := rfl

theorem step_join_messages (st : ServerState) (cid : Nat) (u : String) (now : Nat) :
    (step st (.join cid u now)).1.messages = st.messages := rfl

theorem step_sendMessage_activeUsers (st : ServerState) (cid : Nat) (b : String) (now : Nat) :
    (step st (.sendMessage cid b now)).1.activeUsers = st.activeUsers := by
  cases h : mapGet st.activeUsers cid <;> simp [step, handleSendMessage, h]

theorem step_typing_state (st : ServerState) (cid : Nat) (b : Bool) :
    (step st (.typing cid b)).1 = st := by
  cases h : mapGet st.activeUsers cid <;> simp [step, handleTyping, h]

theorem step_disconnect_messages (st : ServerState) (cid : Nat) (now : Nat) :
    (step st (.disconnect cid now)).1.messages = st.messages := by
  cases h : mapGet st.activeUsers cid <;> simp [step, handleDisconnect, h]

theorem step_keys_nodup (st : ServerState) (e : Event)
    (h : (st.activeUsers.map (·.1)).Nodup) :
    ((step st e).1.activeUsers.map (·.1)).Nodup := by
  cases e with
  | join cid u now =>
      rw [step_join_activeUsers]
      exact keys_mapSet_nodup _ _ _ h
  | sendMessage cid b now =>
      rw [step_sendMessage_activeUsers]
      exact h
  | typing cid b =>
      rw [step_typing_state]
      exact h
  | disconnect cid now =>
      cases hget : mapGet st.activeUsers cid with
      | none => simpa [step, handleDisconnect, hget] using h
      | some u =>
          have : (step st (.disconnect cid now)).1.activeUsers
              = mapDelete st.activeUsers cid := by
            simp [step, handleDisconnect, hget]
          rw [this]
          exact keys_mapDelete_nodup _ _ h

/-- Size accounting over a trace: the number of registry entries plus the
disconnects that found a live entry equals the initial size plus the joins
that added a new entry. -/
theorem registry_size_eq (es : List Event) :
    ∀ st : ServerState, (st.activeUsers.map (·.1)).Nodup →
      (runState st es).activeUsers.length + matchedDisconnects st es
        = st.activeUsers.length + freshJoins st es := by
  induction es with
  | nil =>
      intro st _
      simp [runState, matchedDisconnects, freshJoins]
  | cons e es ih =>
      intro st h
      have IH := ih (step st e).1 (step_keys_nodup st e h)
      rw [runState]
      cases e with
      | join cid u now =>
          simp only [matchedDisconnects, freshJoins]
          by_cases hget : mapGet st.activeUsers cid = none
          · have hany : st.activeUsers.any (fun p => p.1 == cid) = false :=
              (mapGet_eq_none_iff _ _).mp hget
            have hlen : (step st (Event.join cid u now)).1.activeUsers.length
                = st.activeUsers.length + 1 := by
              rw [step_join_activeUsers, length_mapSet, if_neg (by simp [hany])]
            rw [if_pos hget]
            omega
          · have hany : st.activeUsers.any (fun p => p.1 == cid) = true := by
              cases hx : st.activeUsers.any (fun p => p.1 == cid) with
              | true => rfl
              | false => exact absurd ((mapGet_eq_none_iff _ _).mpr hx) hget
            have hlen : (step st (Event.join cid u now)).1.activeUsers.length
                = st.activeUsers.length := by
              rw [step_join_activeUsers, length_mapSet, if_pos (by simp [hany])]
            rw [if_neg hget]
            omega
      | sendMessage cid b now =>
          simp only [matchedDisconnects, freshJoins]
          have hlen : (step st (Event.sendMessage cid b now)).1.activeUsers.length
              = st.activeUsers.length := by rw [step_sendMessage_activeUsers]
          omega
      | typing cid b =>
          simp only [matchedDisconnects, freshJoins]
          have hlen : (step st (Event.typing cid b)).1.activeUsers.length
              = st.activeUsers.length := by rw [step_typing_state]
          omega
      | disconnect cid now =>
          simp only [matchedDisconnects, freshJoins]
          cases hget : mapGet st.activeUsers cid with
          | none =>
              have hstep : (step st (Event.disconnect cid now)).1 = st := by
                simp [step, handleDisconnect, hget]
              have hif : (if (none : Option Participant).isSome = true then 1 else 0) = 0 := rfl
              rw [hif]
              rw [hstep] at IH
              rw [hstep]
              omega
          | some u =>
              have hany : st.activeUsers.any (fun p => p.1 == cid) = true :=
                any_of_mapGet_eq_some hget
              have hstep : (step st (Event.disconnect cid now)).1.activeUsers
                  = mapDelete st.activeUsers cid := by
                simp [step, handleDisconnect, hget]
              have hlen : (mapDelete st.activeUsers cid).length + 1
                  = st.activeUsers.length :=
                length_mapDelete_add_one cid st.activeUsers h hany
              have hif : (if (some u).isSome = true then 1 else 0) = 1 := rfl
              rw [hif]
              rw [hstep] at IH
              omega

/-! ### Lemmas about `sliceLast` and the bounded message log -/

theorem sliceLast_length_le (l : List α) (n : Nat) : (sliceLast l n).length ≤ n := by
  unfold sliceLast
  rw [List.length_drop]
  omega

theorem sliceLast_of_le (l : List α) {n : Nat} (h : l.length ≤ n) :
    sliceLast l n = l := by
  unfold sliceLast
  have h0 : l.length - n = 0 := by omega
  rw [h0, List.drop_zero]

theorem sliceLast_append_left (l A : List α) (n : Nat) :
    sliceLast (sliceLast l n ++ A) n = sliceLast (l ++ A) n := by
  unfold sliceLast
  by_cases h : n ≤ l.length
  · have hx : (l.drop (l.length - n)).length = n := by
      rw [List.length_drop]
      omega
    rw [List.length_append, List.length_append, hx,
      List.drop_append_eq_append_drop, List.drop_append_eq_append_drop,
      List.drop_drop, hx]
    have e1 : l.length - n + (n + A.length - n) = l.length + A.length - n := by
      omega
    have e2 : n + A.length - n - n = l.length + A.length - n - l.length := by
      omega
    rw [e1, e2]
  · have h0 : l.length - n = 0 := by omega
    rw [h0, List.drop_zero]

theorem push_shift_eq_sliceLast (msgs : List ChatMessage) (m : ChatMessage)
    (h : msgs.length ≤ 100) :
    (if (msgs ++ [m]).length > 100 then (msgs ++ [m]).drop 1 else msgs ++ [m])
      = sliceLast (msgs ++ [m]) 100 := by
  by_cases h1 : (msgs ++ [m]).length > 100
  · rw [if_pos h1]
    unfold sliceLast
    have hlen : (msgs ++ [m]).length = 101 := by
      rw [List.length_append] at h1 ⊢
      simp only [List.length_singleton] at h1 ⊢
      omega
    rw [hlen]
  · rw [if_neg h1]
    exact (sliceLast_of_le _ (by omega)).symm

/-- Log representation over a trace: starting from a log within its bound,
the final log is exactly the last 100 of the initial log followed by every
message the trace appended, oldest first. -/
theorem messages_rep (es : List Event) :
    ∀ st : ServerState, st.messages.length ≤ 100 →
      (runState st es).messages
        = sliceLast (st.messages ++ appendedMessages st es) 100 := by
  induction es with
  | nil =>
      intro st h
      simp only [runState, appendedMessages, List.append_nil]
      exact (sliceLast_of_le _ h).symm
  | cons e es ih =>
      intro st h
      rw [runState]
      cases e with
      | join cid u now =>
          simp only [appendedMessages, List.nil_append]
          rw [ih _ (by rw [step_join_messages]; exact h), step_join_messages]
      | typing cid b =>
          simp only [appendedMessages, List.nil_append]
          rw [ih _ (by rw [step_typing_state]; exact h), step_typing_state]
      | disconnect cid now =>
          simp only [appendedMessages, List.nil_append]
          rw [ih _ (by rw [step_disconnect_messages]; exact h),
            step_disconnect_messages]
      | sendMessage cid b now =>
          cases hget : mapGet st.activeUsers cid with
          | none =>
              have hstep : (step st (Event.sendMessage cid b now)).1 = st := by
                simp [step, handleSendMessage, hget]
              simp only [appendedMessages, hget, List.nil_append]
              rw [hstep, ih st h]
          | some u =>
              have h1 : (step st (Event.sendMessage cid b now)).1.messages
                  = sliceLast (st.messages ++ [⟨now, u.username, b, now⟩]) 100 := by
                simp only [step, handleSendMessage, hget]
                exact push_shift_eq_sliceLast _ _ h
              have hlen : (step st (Event.sendMessage cid b now)).1.messages.length
                  ≤ 100 := by
                rw [h1]
                exact sliceLast_length_le _ _
              simp only [appendedMessages, hget]
              rw [ih _ hlen, h1, sliceLast_append_left]
              congr 1
              simp

/-! ### Claim theorems -/

/-- **C1** (counterexample to the claim as stated): a `join` for an already
registered connectionId is not rejected and the prior entry is not left
intact.  After `join 1 "alice"` at time 0 and `join 1 "bob"` at time 1, the
registry entry for connection 1 holds the new username and join time. -/
theorem duplicate_join_not_rejected :
    mapGet (runState initState [.join 1 "alice" 0, .join 1 "bob" 1]).activeUsers 1
        = some ⟨1, "bob", 1⟩ ∧
      mapGet (runState initState [.join 1 "alice" 0, .join 1 "bob" 1]).activeUsers 1
        ≠ some ⟨1, "alice", 0⟩ := by
  decide

/-- **C1** (amended): for every join event whose connectionId is already
registered in the Registry, the registration is not rejected:
`activeUsers.set` silently overwrites, and afterwards the Registry maps the
connectionId to a Participant carrying the new username and joinedAt. -/
theorem duplicate_join_overwrites (st : ServerState) (cid : Nat)
    (uOld : Participant) (uNew : String) (tNew : Nat)
    (_h : mapGet st.activeUsers cid = some uOld) :
    mapGet (step st (.join cid uNew tNew)).1.activeUsers cid
      = some ⟨cid, uNew, tNew⟩ := by
  rw [step_join_activeUsers]
  exact mapGet_mapSet_self _ _ _

theorem duplicate_join_overwrites_witness :
    mapGet (⟨[(1, ⟨1, "alice", 0⟩)], []⟩ : ServerState).activeUsers 1
        = some ⟨1, "alice", 0⟩ ∧
      mapGet (step (⟨[(1, ⟨1, "alice", 0⟩)], []⟩ : ServerState)
          (.join 1 "bob" 1)).1.activeUsers 1 = some ⟨1, "bob", 1⟩ :=
  ⟨rfl, duplicate_join_overwrites ⟨[(1, ⟨1, "alice", 0⟩)], []⟩ 1 ⟨1, "alice", 0⟩
    "bob" 1 rfl⟩

/-- **C2** (counterexample to the claim as stated): a duplicate join
overwrites instead of adding, so the registry size can differ from the
number of join events minus the matched disconnects: after two joins for
connection 1 the registry holds 1 entry, not 2 - 0. -/
theorem registry_size_join_count_counterexample :
    (runState initState [.join 1 "a" 0, .join 1 "a" 1]).activeUsers.length = 1 ∧
      joinEvents [.join 1 "a" 0, .join 1 "a" 1] = 2 ∧
      matchedDisconnects initState [.join 1 "a" 0, .join 1 "a" 1] = 0 ∧
      (runState initState [.join 1 "a" 0, .join 1 "a" 1]).activeUsers.length
        ≠ joinEvents [.join 1 "a" 0, .join 1 "a" 1]
            - matchedDisconnects initState [.join 1 "a" 0, .join 1 "a" 1] := by
  decide

/-- **C2** (amended): for every sequence of events processed from the start
state, the size of the registry equals the number of join events whose
connectionId was not registered at processing time minus the number of
disconnect events that matched a live connectionId; that difference is
never negative (a disconnect that finds no live entry - e.g. a repeated
disconnect for the same connectionId - is not counted). -/
theorem registry_size_matches_fresh_joins (es : List Event) :
    (runState initState es).activeUsers.length + matchedDisconnects initState es
        = freshJoins initState es ∧
      matchedDisconnects initState es ≤ freshJoins initState es := by
  have h := registry_size_eq es initState (by simp [initState])
  have h0 : initState.activeUsers.length = 0 := rfl
  rw [h0] at h
  exact ⟨by omega, by omega⟩

set_option maxRecDepth 10000 in
/-- **C3**: for every trace from the start state the message log never
exceeds 100 entries and equals the last 100 appended messages oldest-first
(FIFO eviction of the oldest); in particular, after a join and 101
sequential sends the log holds exactly 100 messages and the first retained
one is message number 2 (sent at clock value 2). -/
theorem message_log_bounded_fifo :
    (∀ es : List Event,
        (runState initState es).messages.length ≤ 100 ∧
          (runState initState es).messages
            = sliceLast (appendedMessages initState es) 100) ∧
      (runState initState scenario101).messages.length = 100 ∧
      (runState initState scenario101).messages.head?
        = some ⟨2, "alice", "m", 2⟩ := by
  constructor
  · intro es
    have h := messages_rep es initState (by simp [initState])
    have h0 : initState.messages = [] := rfl
    rw [h0, List.nil_append] at h
    exact ⟨by rw [h]; exact sliceLast_length_le _ _, h⟩
  · decide

/-- **C4**: a `sendMessage` event from a connectionId not present in the
Registry leaves the state (in particular the message log) unchanged and
produces no outbound emission. -/
theorem sendMessage_unknown_sender_noop (st : ServerState) (cid : Nat)
    (body : String) (now : Nat) (h : mapGet st.activeUsers cid = none) :
    step st (.sendMessage cid body now) = (st, []) := by
  simp [step, handleSendMessage, h]

theorem sendMessage_unknown_sender_noop_witness :
    mapGet initState.activeUsers 7 = none ∧
      step initState (.sendMessage 7 "hi" 3) = (initState, []) :=
  ⟨rfl, sendMessage_unknown_sender_noop initState 7 "hi" 3 rfl⟩

/-- **C5**: for every processed event, a `userJoined` emission is never
delivered to the joining connection itself, a `userTyping` emission is
never delivered to the typing connection itself, and a `newMessage`
emission is delivered to every connection, the sender included. -/
theorem broadcast_exclusions (st : ServerState) (conns : List Nat) :
    (∀ cid u now em, em ∈ (step st (.join cid u now)).2 →
        ∀ exc uu msg t, em = Emission.userJoined exc uu msg t →
          delivers conns cid em = false) ∧
      (∀ cid b em, em ∈ (step st (.typing cid b)).2 →
        ∀ exc uu tt, em = Emission.userTyping exc uu tt →
          delivers conns cid em = false) ∧
      (∀ cid body now em, em ∈ (step st (.sendMessage cid body now)).2 →
        cid ∈ conns →
        ∀ msg, em = Emission.newMessage msg → delivers conns cid em = true) := by
  refine ⟨?_, ?_, ?_⟩
  · intro cid u now em hem exc uu msg t hshape
    have hout : (step st (.join cid u now)).2
        = [Emission.userJoined cid u (u ++ " joined the chat") now,
           Emission.usersList cid
             ((mapSet st.activeUsers cid ⟨cid, u, now⟩).map (·.2)),
           Emission.messageHistory cid (sliceLast st.messages 20)] := rfl
    rw [hout] at hem
    simp only [List.mem_cons, List.not_mem_nil, or_false] at hem
    rcases hem with rfl | rfl | rfl
    · simp [delivers]
    · cases hshape
    · cases hshape
  · intro cid b em hem exc uu tt hshape
    cases hget : mapGet st.activeUsers cid with
    | none => simp [step, handleTyping, hget] at hem
    | some u =>
        have hout : (step st (.typing cid b)).2
            = [Emission.userTyping cid u.username b] := by
          simp [step, handleTyping, hget]
        rw [hout] at hem
        simp only [List.mem_singleton] at hem
        subst hem
        simp [delivers]
  · intro cid body now em hem hconns msg hshape
    cases hget : mapGet st.activeUsers cid with
    | none => simp [step, handleSendMessage, hget] at hem
    | some u =>
        have hout : (step st (.sendMessage cid body now)).2
            = [Emission.newMessage ⟨now, u.username, body, now⟩] := by
          simp [step, handleSendMessage, hget]
        rw [hout] at hem
        simp only [List.mem_singleton] at hem
        subst hem
        simp [delivers, hconns]

theorem broadcast_exclusions_witness :
    delivers [1, 2] 1 (Emission.userTyping 1 "alice" true) = false ∧
      delivers [1, 2] 1
        (Emission.newMessage ⟨7, "alice", "hi", 7⟩) = true :=
  ⟨(broadcast_exclusions ⟨[(1, ⟨1, "alice", 0⟩)], []⟩ [1, 2]).2.1 1 true
      (Emission.userTyping 1 "alice" true) (by decide) 1 "alice" true rfl,
   (broadcast_exclusions ⟨[(1, ⟨1, "alice", 0⟩)], []⟩ [1, 2]).2.2 1 "hi" 7
      (Emission.newMessage ⟨7, "alice", "hi", 7⟩) (by decide) (by decide)
      ⟨7, "alice", "hi", 7⟩ rfl⟩

/-- **C6**: every join event sends the joining connection exactly two direct
emissions: the full participant list after registration (which contains the
joiner itself) and the last 20 entries of the message log. -/
theorem join_direct_emissions (st : ServerState) (cid : Nat) (u : String) (now : Nat) :
    ((step st (.join cid u now)).2.filter
        (fun em => directTarget em == some cid))
      = [Emission.usersList cid
           ((mapSet st.activeUsers cid ⟨cid, u, now⟩).map (·.2)),
         Emission.messageHistory cid (sliceLast st.messages 20)] ∧
      (⟨cid, u, now⟩ : Participant)
        ∈ (mapSet st.activeUsers cid ⟨cid, u, now⟩).map (·.2) := by
  constructor
  · have hout : (step st (.join cid u now)).2
        = [Emission.userJoined cid u (u ++ " joined the chat") now,
           Emission.usersList cid
             ((mapSet st.activeUsers cid ⟨cid, u, now⟩).map (·.2)),
           Emission.messageHistory cid (sliceLast st.messages 20)] := rfl
    rw [hout]
    rw [List.filter_cons_of_neg (by simp [directTarget]),
      List.filter_cons_of_pos (by simp [directTarget]),
      List.filter_cons_of_pos (by simp [directTarget]), List.filter_nil]
  · have hsome := mapGet_mapSet_self st.activeUsers cid ⟨cid, u, now⟩
    unfold mapGet at hsome
    obtain ⟨pr, hfind, hsnd⟩ := Option.map_eq_some'.mp hsome
    have hmem : pr ∈ mapSet st.activeUsers cid ⟨cid, u, now⟩ :=
      List.mem_of_find?_eq_some hfind
    have hmap : pr.2 ∈ (mapSet st.activeUsers cid ⟨cid, u, now⟩).map (·.2) :=
      List.mem_map_of_mem _ hmem
    rwa [hsnd] at hmap

/-- **C7**: a disconnect for a registered connectionId removes its entry
from the registry and broadcasts `userLeft` with its username to everyone
except the (gone) connection; a disconnect for an unregistered connectionId
changes nothing and emits nothing. -/
theorem disconnect_behavior (st : ServerState) (cid : Nat) (now : Nat) :
    (∀ u, mapGet st.activeUsers cid = some u →
        (step st (.disconnect cid now)).1.activeUsers
            = mapDelete st.activeUsers cid ∧
          mapGet (step st (.disconnect cid now)).1.activeUsers cid = none ∧
          (step st (.disconnect cid now)).2
            = [Emission.userLeft cid u.username
                (u.username ++ " left the chat") now]) ∧
      (mapGet st.activeUsers cid = none →
        step st (.disconnect cid now) = (st, [])) := by
  constructor
  · intro u hget
    have h1 : (step st (.disconnect cid now)).1.activeUsers
        = mapDelete st.activeUsers cid := by
      simp [step, handleDisconnect, hget]
    refine ⟨h1, ?_, ?_⟩
    · rw [h1]
      exact mapGet_mapDelete_self _ _
    · simp [step, handleDisconnect, hget]
  · intro hget
    simp [step, handleDisconnect, hget]

theorem disconnect_behavior_witness :
    (step (⟨[(1, ⟨1, "alice", 0⟩)], []⟩ : ServerState) (.disconnect 1 5)).2
        = [Emission.userLeft 1 "alice" "alice left the chat" 5] ∧
      step initState (.disconnect 2 5) = (initState, []) :=
  ⟨((disconnect_behavior ⟨[(1, ⟨1, "alice", 0⟩)], []⟩ 1 5).1
      ⟨1, "alice", 0⟩ rfl).2.2,
   (disconnect_behavior initState 2 5).2 rfl⟩

/-- **C8**: a typing event never changes the registry or the message log;
when the sender is registered it emits exactly one `userTyping` broadcast
with the sender's username and the flag, which is not delivered to the
sender itself; when the sender is unregistered nothing is emitted. -/
theorem typing_frame_and_broadcast (st : ServerState) (cid : Nat) (b : Bool) :
    (step st (.typing cid b)).1 = st ∧
      (mapGet st.activeUsers cid = none → (step st (.typing cid b)).2 = []) ∧
      (∀ u, mapGet st.activeUsers cid = some u →
        (step st (.typing cid b)).2 = [Emission.userTyping cid u.username b] ∧
          ∀ conns : List Nat,
            delivers conns cid (Emission.userTyping cid u.username b) = false) := by
  refine ⟨step_typing_state st cid b,
    fun hget => by simp [step, handleTyping, hget],
    fun u hget => ⟨by simp [step, handleTyping, hget],
      fun conns => by simp [delivers]⟩⟩

theorem typing_frame_and_broadcast_witness :
    (step (⟨[(1, ⟨1, "alice", 0⟩)], []⟩ : ServerState) (.typing 1 true)).1
        = (⟨[(1, ⟨1, "alice", 0⟩)], []⟩ : ServerState) ∧
      (step (⟨[(1, ⟨1, "alice", 0⟩)], []⟩ : ServerState) (.typing 1 true)).2
        = [Emission.userTyping 1 "alice" true] ∧
      step initState (.typing 3 true) = (initState, []) :=
  ⟨(typing_frame_and_broadcast ⟨[(1, ⟨1, "alice", 0⟩)], []⟩ 1 true).1,
   ((typing_frame_and_broadcast ⟨[(1, ⟨1, "alice", 0⟩)], []⟩ 1 true).2.2
      ⟨1, "alice", 0⟩ rfl).1,
   by
    have h := (typing_frame_and_broadcast initState 3 true).2.1 rfl
    have h1 := (typing_frame_and_broadcast initState 3 true).1
    have : step initState (.typing 3 true)
        = ((step initState (.typing 3 true)).1, (step initState (.typing 3 true)).2) := rfl
    rw [this, h, h1]⟩

/-- Every message in the log after a trace was either already in the log or
is one of the messages the trace appended (no in-place mutation). -/
theorem mem_messages_run (es : List Event) :
    ∀ (st : ServerState) (m : ChatMessage), m ∈ (runState st es).messages →
      m ∈ st.messages ∨ m ∈ appendedMessages st es := by
  induction es with
  | nil =>
      intro st m h
      rw [runState] at h
      exact Or.inl h
  | cons e es ih =>
      intro st m hm
      rw [runState] at hm
      rcases ih _ m hm with hin | hin
      · cases e with
        | join cid u now =>
            rw [step_join_messages] at hin
            exact Or.inl hin
        | typing cid b =>
            rw [step_typing_state] at hin
            exact Or.inl hin
        | disconnect cid now =>
            rw [step_disconnect_messages] at hin
            exact Or.inl hin
        | sendMessage cid b now =>
            cases hget : mapGet st.activeUsers cid with
            | none =>
                have hstep : (step st (Event.sendMessage cid b now)).1 = st := by
                  simp [step, handleSendMessage, hget]
                rw [hstep] at hin
                exact Or.inl hin
            | some u =>
                have hms : (step st (Event.sendMessage cid b now)).1.messages
                    = (if (st.messages ++ [(⟨now, u.username, b, now⟩ : ChatMessage)]).length > 100
                       then (st.messages ++ [(⟨now, u.username, b, now⟩ : ChatMessage)]).drop 1
                       else st.messages ++ [(⟨now, u.username, b, now⟩ : ChatMessage)]) := by
                  simp only [step, handleSendMessage, hget]
                rw [hms] at hin
                have hmem : m ∈ st.messages ++ [(⟨now, u.username, b, now⟩ : ChatMessage)] := by
                  by_cases hc : (st.messages ++ [(⟨now, u.username, b, now⟩ : ChatMessage)]).length > 100
                  · rw [if_pos hc] at hin
                    exact List.mem_of_mem_drop hin
                  · rwa [if_neg hc] at hin
                rcases List.mem_append.mp hmem with h1 | h1
                · exact Or.inl h1
                · right
                  rw [appendedMessages]
                  simp only [hget]
                  exact List.mem_append_left _ h1
      · right
        cases e with
        | join cid u now =>
            simp only [appendedMessages, List.nil_append]
            exact hin
        | typing cid b =>
            simp only [appendedMessages, List.nil_append]
            exact hin
        | disconnect cid now =>
            simp only [appendedMessages, List.nil_append]
            exact hin
        | sendMessage cid b now =>
            cases hget : mapGet st.activeUsers cid with
            | none =>
                simp only [appendedMessages, hget, List.nil_append]
                exact hin
            | some u =>
                simp only [appendedMessages, hget]
                exact List.mem_append_right _ hin

/-- **C9**: a ChatMessage's username is a copy of the sending participant's
username taken at send time; a join (in particular a re-join under another
username) leaves the log untouched, and more generally every message in the
log after any trace is an unmodified copy of a message that was in the log
or was appended by the trace. -/
theorem message_username_immutable :
    (∀ (st : ServerState) (cid : Nat) (body : String) (now : Nat) (u : Participant),
        mapGet st.activeUsers cid = some u →
          (step st (.sendMessage cid body now)).2
            = [Emission.newMessage ⟨now, u.username, body, now⟩]) ∧
      (∀ (st : ServerState) (cid : Nat) (u : String) (now : Nat),
        (step st (.join cid u now)).1.messages = st.messages) ∧
      (∀ (st : ServerState) (es : List Event) (m : ChatMessage),
        m ∈ (runState st es).messages →
          m ∈ st.messages ∨ m ∈ appendedMessages st es) := by
  refine ⟨?_, ?_, ?_⟩
  · intro st cid body now u hget
    simp [step, handleSendMessage, hget]
  · intro st cid u now
    exact step_join_messages st cid u now
  · intro st es m hm
    exact mem_messages_run es st m hm

theorem message_username_immutable_witness :
    (step (⟨[(1, ⟨1, "alice", 0⟩)], []⟩ : ServerState) (.sendMessage 1 "hi" 7)).2
      = [Emission.newMessage ⟨7, "alice", "hi", 7⟩] :=
  message_username_immutable.1 ⟨[(1, ⟨1, "alice", 0⟩)], []⟩ 1 "hi" 7
    ⟨1, "alice", 0⟩ rfl

/-- One step preserves the invariant that every stored participant's `id`
field equals the key it is stored under. -/
theorem ids_match_step (st : ServerState) (e : Event)
    (h : ∀ p ∈ st.activeUsers, p.2.id = p.1) :
    ∀ p ∈ (step st e).1.activeUsers, p.2.id = p.1 := by
  cases e with
  | join cid u now =>
      rw [step_join_activeUsers]
      intro p hp
      unfold mapSet at hp
      by_cases hany : st.activeUsers.any (fun q => q.1 == cid) = true
      · rw [if_pos hany] at hp
        obtain ⟨a, ha, hfa⟩ := List.mem_map.mp hp
        by_cases hk : (a.1 == cid) = true
        · rw [if_pos hk] at hfa
          rw [← hfa]
        · rw [if_neg hk] at hfa
          rw [← hfa]
          exact h a ha
      · rw [if_neg hany] at hp
        rcases List.mem_append.mp hp with h1 | h1
        · exact h p h1
        · simp only [List.mem_singleton] at h1
          rw [h1]
  | sendMessage cid b now =>
      rw [step_sendMessage_activeUsers]
      exact h
  | typing cid b =>
      rw [step_typing_state]
      exact h
  | disconnect cid now =>
      cases hget : mapGet st.activeUsers cid with
      | none =>
          have hstep : (step st (Event.disconnect cid now)).1 = st := by
            simp [step, handleDisconnect, hget]
          rw [hstep]
          exact h
      | some u =>
          have hstep : (step st (Event.disconnect cid now)).1.activeUsers
              = mapDelete st.activeUsers cid := by
            simp [step, handleDisconnect, hget]
          rw [hstep]
          intro p hp
          exact h p (List.mem_of_mem_filter hp)

theorem ids_match_runState (es : List Event) :
    ∀ st : ServerState, (∀ p ∈ st.activeUsers, p.2.id = p.1) →
      ∀ p ∈ (runState st es).activeUsers, p.2.id = p.1 := by
  induction es with
  | nil =>
      intro st h
      rw [runState]
      exact h
  | cons e es ih =>
      intro st h
      rw [runState]
      exact ih _ (ids_match_step st e h)

/-- **C10**: in every reachable registry state each stored participant's
`id` field equals the connectionId key it is stored under, and consequently
every entry of a `usersList` emitted on a join from a reachable state is
itself registered under its own `id`. -/
theorem registry_ids_match_keys :
    (∀ es : List Event, ∀ p ∈ (runState initState es).activeUsers, p.2.id = p.1) ∧
      (∀ (es : List Event) (cid : Nat) (u : String) (now : Nat)
          (users : List Participant),
        Emission.usersList cid users
            ∈ (step (runState initState es) (.join cid u now)).2 →
          ∀ q ∈ users,
            (q.id, q) ∈ (step (runState initState es) (.join cid u now)).1.activeUsers) := by
  have hrun : ∀ es : List Event,
      ∀ p ∈ (runState initState es).activeUsers, p.2.id = p.1 :=
    fun es => ids_match_runState es initState (by intro p hp; simp [initState] at hp)
  refine ⟨hrun, ?_⟩
  intro es cid u now users hmem q hq
  have hout : (step (runState initState es) (.join cid u now)).2
      = [Emission.userJoined cid u (u ++ " joined the chat") now,
         Emission.usersList cid
           ((mapSet (runState initState es).activeUsers cid ⟨cid, u, now⟩).map (·.2)),
         Emission.messageHistory cid
           (sliceLast (runState initState es).messages 20)] := rfl
  rw [hout] at hmem
  simp only [List.mem_cons, List.not_mem_nil, or_false] at hmem
  rcases hmem with h1 | h1 | h1
  · cases h1
  · have hinv := ids_match_step (runState initState es) (.join cid u now) (hrun es)
    cases h1
    obtain ⟨pr, hpr, hsnd⟩ := List.mem_map.mp hq
    have hpr' : pr ∈ (step (runState initState es) (.join cid u now)).1.activeUsers := by
      rw [step_join_activeUsers]
      exact hpr
    have hid : pr.2.id = pr.1 := hinv pr hpr'
    rw [← hsnd, hid]
    exact hpr'
  · cases h1

theorem registry_ids_match_keys_witness :
    ((1 : Nat), (⟨1, "alice", 0⟩ : Participant)).2.id
      = ((1 : Nat), (⟨1, "alice", 0⟩ : Participant)).1 :=
  registry_ids_match_keys.1 [.join 1 "alice" 0]
    (1, ⟨1, "alice", 0⟩) (by decide)

end ChatServer
